import Mathlib

set_option maxHeartbeats 1000000
set_option maxRecDepth 200000
set_option linter.unusedVariables false

/-!
Shallow embedding of the `schulze_condorcet` package: ballot parsing
(`util.as_vote_tuple` / `util.as_vote_string`), the two reference strength
metrics (`strength.winning_votes` / `strength.margin`), ballot validation
(`_check_consistency`), pairwise tallying (`_pairwise_preference`), the
widest-path computation and winner extraction (`_schulze_winners`), the
level-extraction loop (`_schulze_evaluate_routine`) and the public entry
points (`schulze_evaluate`, `pairwise_preference`).

Candidates and votes are plain strings, as in the source.  Python dicts
keyed by candidate pairs are embedded as functions `String → String → Int`
(resp. as an association list where the key set itself matters).  Python
exceptions are embedded as `Except String`.
-/

/-- Python `str.split(sep)` for a single-character separator, acting on the
character list of the string.  Like Python's `split`, the result is never
empty and empty segments are kept. -/
def splitOnChar (sep : Char) : List Char → List (List Char)
  | [] => [[]]
  | c :: rest =>
    match splitOnChar sep rest with
    | [] => [[]]
    | l :: ls => if c = sep then [] :: l :: ls else (c :: l) :: ls

/-- `util.as_vote_tuple`: split a vote string into levels at `>`, and each
level into candidates at `=`. -/
def as_vote_tuple (value : String) : List (List String) :=
  (splitOnChar '>' value.data).map (fun level => (splitOnChar '=' level).map String.mk)

/-- `util.as_vote_tuples`. -/
def as_vote_tuples (values : List String) : List (List (List String)) :=
  values.map as_vote_tuple

/-- Python `sep.join(pieces)`. -/
def joinSep (sep : String) : List String → String
  | [] => ""
  | [x] => x
  | x :: y :: xs => x ++ sep ++ joinSep sep (y :: xs)

/-- `util.as_vote_string`: join each level with `=`, join the levels with `>`. -/
def as_vote_string (value : List (List String)) : String :=
  joinSep ">" (value.map (fun level => joinSep "=" level))

/-- `strength.winning_votes`: `totalvotes * support - opposition` when the
support exceeds the opposition, `0` on a tie, `-1` on a loss. -/
def winning_votes (support opposition totalvotes : Nat) : Int :=
  if opposition < support then (totalvotes : Int) * support - opposition
  else if support = opposition then 0
  else -1

/-- `strength.margin`: the difference between support and opposition. -/
def margin (support opposition totalvotes : Nat) : Int :=
  (support : Int) - opposition

/-- `_subindex`: the index of the first level of the vote containing the
element.  The Python function raises `ValueError` when the element occurs in
no level, which cannot happen on validated votes; that case is `none` here. -/
def subindex (alist : List (List String)) (element : String) : Option Nat :=
  alist.findIdx? (fun sublist => sublist.contains element)

/-- One vote ranks `x` strictly above `y`: the condition
`_subindex(vote, x) < _subindex(vote, y)` of `_pairwise_preference`. -/
def ranksAbove (vote : List (List String)) (x y : String) : Bool :=
  match subindex vote x, subindex vote y with
  | some i, some j => decide (i < j)
  | _, _ => false

/-- The value `counts[(x, y)]` of the dict built by `_pairwise_preference`:
the entry starts at 0 and is incremented once per vote ranking `x` strictly
above `y`. -/
def preferCount (votes : List String) (x y : String) : Nat :=
  (as_vote_tuples votes).countP (fun vote => ranksAbove vote x y)

/-- The key list of the `counts` dict of `_pairwise_preference`:
`{(x, y): ... for x in candidates for y in candidates}` in insertion order. -/
def pairKeys (candidates : List String) : List (String × String) :=
  (candidates.map (fun x => candidates.map (fun y => (x, y)))).flatten

/-- `_pairwise_preference` as the finished dict: an association list with one
entry per ordered pair of candidates, in the dict's insertion order. -/
def pairwise_preference_table (votes : List String) (candidates : List String) :
    List ((String × String) × Nat) :=
  (pairKeys candidates).map (fun q => (q, preferCount votes q.1 q.2))

/-- One dict assignment `p[(j, k)] = v` on a strength table. -/
def updateEntry (p : String → String → Int) (j k : String) (v : Int) :
    String → String → Int :=
  fun a b => if a = j ∧ b = k then v else p a b

/-- The innermost loop of the widest-path computation of `_schulze_winners`:
`for k in candidates`, skipping `k in {i, j}`, updating
`p[(j,k)] = max(p[(j,k)], min(p[(j,i)], p[(i,k)]))`. -/
def closureK (i j : String) (ks : List String) (p : String → String → Int) :
    String → String → Int :=
  ks.foldl (fun p k =>
    if k = i ∨ k = j then p
    else updateEntry p j k (max (p j k) (min (p j i) (p i k)))) p

/-- The middle loop: `for j in candidates`, skipping `i == j`. -/
def closureJ (i : String) (js ks : List String) (p : String → String → Int) :
    String → String → Int :=
  js.foldl (fun p j => if i = j then p else closureK i j ks p) p

/-- The full widest-path table `p` of `_schulze_winners`: start from `d` and
run the Floyd-Warshall variant with every candidate as intermediate vertex. -/
def strongest_paths (d : String → String → Int) (candidates : List String) :
    String → String → Int :=
  candidates.foldl (fun p i => closureJ i candidates candidates p) d

/-- `_schulze_winners`: the candidates `i` with `p[(i,j)] >= p[(j,i)]` for
every candidate `j`, in candidate order. -/
def schulze_winners (d : String → String → Int) (candidates : List String) :
    List String :=
  let p := strongest_paths d candidates
  candidates.filter (fun i => candidates.all (fun j => decide (p j i ≤ p i j)))

/-- The check `_check_consistency` performs for a single (already split) vote:
`none` when the vote is consistent with the candidates, otherwise the message
of the `ValueError` raised.  The Python code first compares the candidate sets
(proper inclusion distinguishes superfluous from missing candidates) and then
requires each candidate to occur only once. -/
def check_vote (candidates : List String) (vote : List (List String)) :
    Option String :=
  if candidates.all (fun c => vote.flatten.contains c) &&
      vote.flatten.all (fun c => candidates.contains c) then
    if vote.flatten.length = vote.flatten.dedup.length then none
    else some "Every candidate must occur exactly once in each vote."
  else
    if candidates.all (fun c => vote.flatten.contains c) &&
        !(vote.flatten.all (fun c => candidates.contains c)) then
      some "Superfluous candidate in vote string."
    else some "Missing candidate in vote string."

/-- The per-vote loop of `_check_consistency`: raise on the first failing
vote, in vote order. -/
def check_votes (candidates : List String) :
    List (List (List String)) → Except String Unit
  | [] => .ok ()
  | vote :: rest =>
    match check_vote candidates vote with
    | some e => .error e
    | none => check_votes candidates rest

/-- `_check_consistency`: the forbidden-character check on the candidates,
then each vote against the candidate set. -/
def check_consistency (votes : List String) (candidates : List String) :
    Except String Unit :=
  if candidates.any (fun c => c.data.contains '>' || c.data.contains '=') then
    .error "A candidate contains a forbidden character."
  else check_votes candidates (as_vote_tuples votes)

/-- The link-strength table `d` of `_schulze_evaluate_routine`:
`strength(support=counts[(x,y)], opposition=counts[(y,x)], totalvotes=len(votes))`. -/
def link_strength (votes : List String) (strength : Nat → Nat → Nat → Int) :
    String → String → Int :=
  fun x y => strength (preferCount votes x y) (preferCount votes y x) votes.length

/-- The winner-extraction loop of `_schulze_evaluate_routine`: while some
candidate is not yet in a level of `result`, append the Schulze winners of the
remaining candidates.  The Python loop is a bare `while True`; `fuel` bounds
the number of rounds, and `candidates.length` rounds always suffice to place
every candidate (each round places at least one new candidate, see
`schulze_rounds_stable`). -/
def schulze_rounds (d : String → String → Int) (candidates : List String)
    (result : List (List String)) : Nat → List (List String)
  | 0 => result
  | fuel + 1 =>
    let remaining := candidates.filter (fun c => !(result.flatten.contains c))
    if remaining.isEmpty then result
    else schulze_rounds d candidates (result ++ [schulze_winners d remaining]) fuel

/-- `_schulze_evaluate_routine`: the pairwise counts and the leveled result. -/
def schulze_evaluate_routine (votes : List String) (candidates : List String)
    (strength : Nat → Nat → Nat → Int) :
    List ((String × String) × Nat) × List (List String) :=
  (pairwise_preference_table votes candidates,
   schulze_rounds (link_strength votes strength) candidates [] candidates.length)

/-- `schulze_evaluate`: validate, run the routine, condense the result. -/
def schulze_evaluate (votes : List String) (candidates : List String)
    (strength : Nat → Nat → Nat → Int) : Except String String :=
  match check_consistency votes candidates with
  | .error e => .error e
  | .ok () => .ok (as_vote_string (schulze_evaluate_routine votes candidates strength).2)

/-- `pairwise_preference` (the public function): validate, then tally. -/
def pairwise_preference (votes : List String) (candidates : List String) :
    Except String (List ((String × String) × Nat)) :=
  match check_consistency votes candidates with
  | .error e => .error e
  | .ok () => .ok (pairwise_preference_table votes candidates)


deriving instance DecidableEq for Except

/-- The min-max closure property of a strength table `p` with respect to the
intermediate vertices in `done`, over the candidate list `cs`. -/
def ClosedUnder (p : String → String → Int) (cs : List String)
    (done : List String) : Prop :=
  ∀ i ∈ done, ∀ j ∈ cs, ∀ k ∈ cs, j ≠ k → min (p j i) (p i k) ≤ p j k

/-- `winning_votes` as a function of `margin`, on tallies of `n` strictly
ranking ballots: the margin `m` determines the support `(n + m) / 2`, hence
the winning-votes value.  Losses are collapsed to `-1`, ties to `0`. -/
def gwv (n : Nat) (m : Int) : Int :=
  if 0 < m then ((n : Int) + 1) * ((n : Int) + m) / 2 - n
  else if m = 0 then 0
  else -1

/-! ### Characterization of the widest-path folds -/

theorem closureK_cons (i j k : String) (ks : List String) (p : String → String → Int) :
    closureK i j (k :: ks) p =
      closureK i j ks (if k = i ∨ k = j then p
        else updateEntry p j k (max (p j k) (min (p j i) (p i k)))) := rfl

/-- The innermost loop never touches a row other than `j`. -/
theorem closureK_ne_row (i j : String) :
    ∀ (ks : List String) (p : String → String → Int) (a b : String), a ≠ j →
      closureK i j ks p a b = p a b := by
  intro ks
  induction ks with
  | nil => intro p a b _; rfl
  | cons k ks ih =>
    intro p a b ha
    rw [closureK_cons]
    rcases Decidable.em (k = i ∨ k = j) with h | h
    · rw [if_pos h, ih p a b ha]
    · rw [if_neg h, ih _ a b ha]
      simp [updateEntry, ha]

/-- The innermost loop leaves `p[(j, b)]` alone when `b` is `i`, `j`, or not
iterated over. -/
theorem closureK_skip (i j : String) :
    ∀ (ks : List String) (p : String → String → Int) (b : String),
      b = i ∨ b = j ∨ b ∉ ks →
      closureK i j ks p j b = p j b := by
  intro ks
  induction ks with
  | nil => intro p b _; rfl
  | cons k ks ih =>
    intro p b hb
    have hb' : b = i ∨ b = j ∨ b ∉ ks := by
      rcases hb with h | h | h
      · exact Or.inl h
      · exact Or.inr (Or.inl h)
      · exact Or.inr (Or.inr fun hm => h (List.mem_cons_of_mem _ hm))
    rw [closureK_cons]
    rcases Decidable.em (k = i ∨ k = j) with h | h
    · rw [if_pos h, ih p b hb']
    · rw [if_neg h, ih _ b hb']
      have hbk : b ≠ k := by
        rintro rfl
        rcases hb with h1 | h1 | h1
        · exact h (Or.inl h1)
        · exact h (Or.inr h1)
        · exact h1 (List.mem_cons_self b ks)
      simp [updateEntry, hbk]

/-- The innermost loop performs exactly the update
`p[(j,k)] = max(p[(j,k)], min(p[(j,i)], p[(i,k)]))` on each iterated `k`
outside `{i, j}`. -/
theorem closureK_hit (i j : String) (hij : i ≠ j) :
    ∀ (ks : List String) (p : String → String → Int) (b : String),
      b ∈ ks → b ≠ i → b ≠ j →
      closureK i j ks p j b = max (p j b) (min (p j i) (p i b)) := by
  intro ks
  induction ks with
  | nil => intro p b hb _ _; exact absurd hb (List.not_mem_nil b)
  | cons k ks ih =>
    intro p b hb hbi hbj
    rw [closureK_cons]
    rcases Decidable.em (k = i ∨ k = j) with h | h
    · rw [if_pos h]
      have hmem : b ∈ ks := by
        rcases List.mem_cons.mp hb with rfl | hm
        · rcases h with rfl | rfl
          · exact absurd rfl hbi
          · exact absurd rfl hbj
        · exact hm
      exact ih p b hmem hbi hbj
    · rw [if_neg h]
      set q := updateEntry p j k (max (p j k) (min (p j i) (p i k))) with hq
      have hik : i ≠ k := fun hik => h (Or.inl hik.symm)
      have hqji : q j i = p j i := by simp [hq, updateEntry, hik]
      have hqib : ∀ b', q i b' = p i b' := by intro b'; simp [hq, updateEntry, hij]
      by_cases hbk : b = k
      · subst hbk
        have hqjb : q j b = max (p j b) (min (p j i) (p i b)) := by
          simp [hq, updateEntry]
        by_cases hmem : b ∈ ks
        · rw [ih q b hmem hbi hbj, hqjb, hqji, hqib, max_assoc, max_self]
        · rw [closureK_skip i j ks q b (Or.inr (Or.inr hmem)), hqjb]
      · have hqjb : q j b = p j b := by simp [hq, updateEntry, hbk]
        have hmem : b ∈ ks := by
          rcases List.mem_cons.mp hb with rfl | hm
          · exact absurd rfl hbk
          · exact hm
        rw [ih q b hmem hbi hbj, hqjb, hqji, hqib]

theorem closureJ_cons (i j : String) (js ks : List String) (p : String → String → Int) :
    closureJ i (j :: js) ks p =
      closureJ i js ks (if i = j then p else closureK i j ks p) := rfl

/-- The middle loop leaves `p[(a, b)]` alone when `a = i`, `b = i`, `a = b`,
or `a` is not iterated over. -/
theorem closureJ_skip (i : String) (ks : List String) :
    ∀ (js : List String) (p : String → String → Int) (a b : String),
      a = i ∨ b = i ∨ a = b ∨ a ∉ js →
      closureJ i js ks p a b = p a b := by
  intro js
  induction js with
  | nil => intro p a b _; rfl
  | cons j js ih =>
    intro p a b hab
    have hab' : a = i ∨ b = i ∨ a = b ∨ a ∉ js := by
      rcases hab with h | h | h | h
      · exact Or.inl h
      · exact Or.inr (Or.inl h)
      · exact Or.inr (Or.inr (Or.inl h))
      · exact Or.inr (Or.inr (Or.inr fun hm => h (List.mem_cons_of_mem _ hm)))
    rw [closureJ_cons]
    rcases Decidable.em (i = j) with h | h
    · rw [if_pos h, ih p a b hab']
    · rw [if_neg h, ih _ a b hab']
      rcases hab with h1 | h1 | h1 | h1
      · exact closureK_ne_row i j ks p a b fun haj => h (h1.symm.trans haj)
      · by_cases haj : a = j
        · subst haj; exact closureK_skip i a ks p b (Or.inl h1)
        · exact closureK_ne_row i j ks p a b haj
      · by_cases haj : a = j
        · subst haj; exact closureK_skip i a ks p b (Or.inr (Or.inl h1.symm))
        · exact closureK_ne_row i j ks p a b haj
      · exact closureK_ne_row i j ks p a b fun haj =>
          h1 (haj ▸ List.mem_cons_self j js)

/-- The middle loop performs, for each iterated `j ≠ i` and each `k ∉ {i, j}`,
exactly the update `p[(j,k)] = max(p[(j,k)], min(p[(j,i)], p[(i,k)]))`.  The
entries `p[(j,i)]` and `p[(i,k)]` read by the update are never written during
the round for intermediate `i`, so the whole round acts on the start-of-round
table. -/
theorem closureJ_hit (i : String) (ks : List String) :
    ∀ (js : List String) (p : String → String → Int) (j k : String),
      j ∈ js → j ≠ i → k ∈ ks → k ≠ i → k ≠ j →
      closureJ i js ks p j k = max (p j k) (min (p j i) (p i k)) := by
  intro js
  induction js with
  | nil => intro p j k hj _ _ _ _; exact absurd hj (List.not_mem_nil j)
  | cons j0 js ih =>
    intro p j k hj hji hk hki hkj
    rw [closureJ_cons]
    rcases Decidable.em (i = j0) with h | h
    · rw [if_pos h]
      have hmem : j ∈ js := by
        rcases List.mem_cons.mp hj with rfl | hm
        · exact absurd h.symm hji
        · exact hm
      exact ih p j k hmem hji hk hki hkj
    · rw [if_neg h]
      set q := closureK i j0 ks p with hq
      by_cases hjj0 : j = j0
      · subst hjj0
        have hqjk : q j k = max (p j k) (min (p j i) (p i k)) :=
          closureK_hit i j (fun hij => h hij) ks p k hk hki hkj
        have hqji : q j i = p j i := closureK_skip i j ks p i (Or.inl rfl)
        have hqik : q i k = p i k := closureK_ne_row i j ks p i k fun hij => h hij
        by_cases hmem : j ∈ js
        · rw [ih q j k hmem hji hk hki hkj, hqjk, hqji, hqik, max_assoc, max_self]
        · rw [closureJ_skip i ks js q j k (Or.inr (Or.inr (Or.inr hmem))), hqjk]
      · have hmem : j ∈ js := by
          rcases List.mem_cons.mp hj with rfl | hm
          · exact absurd rfl hjj0
          · exact hm
        have hqjk : q j k = p j k := closureK_ne_row i j0 ks p j k hjj0
        have hqji : q j i = p j i := closureK_ne_row i j0 ks p j i hjj0
        have hqik : q i k = p i k := closureK_ne_row i j0 ks p i k fun hij => h hij
        rw [ih q j k hmem hji hk hki hkj, hqjk, hqji, hqik]

/-- One round of the outer loop (intermediate vertex `i`) preserves the
closure property for the already-processed intermediates and establishes it
for `i`. -/
theorem closureJ_closed (cs done : List String) (i : String)
    (hi : i ∈ cs) (hdone : ∀ x ∈ done, x ∈ cs)
    (p : String → String → Int) (hp : ClosedUnder p cs done) :
    ClosedUnder (closureJ i cs cs p) cs (i :: done) := by
  intro t ht j hj k hk hjk
  have hskip : ∀ a b : String, a = i ∨ b = i ∨ a = b →
      closureJ i cs cs p a b = p a b := by
    intro a b hab
    rcases hab with h | h | h
    · exact closureJ_skip i cs cs p a b (Or.inl h)
    · exact closureJ_skip i cs cs p a b (Or.inr (Or.inl h))
    · exact closureJ_skip i cs cs p a b (Or.inr (Or.inr (Or.inl h)))
  have hhit : ∀ a b : String, a ∈ cs → b ∈ cs → a ≠ i → b ≠ i → b ≠ a →
      closureJ i cs cs p a b = max (p a b) (min (p a i) (p i b)) :=
    fun a b ha hb hai hbi hba => closureJ_hit i cs cs p a b ha hai hb hbi hba
  by_cases hti : t = i
  · -- the round just processed intermediate t = i
    by_cases hji : j = i
    · rw [hskip j t (Or.inl hji), hskip t k (Or.inl hti), hskip j k (Or.inl hji),
        hji, hti]
      exact min_le_right _ _
    · by_cases hki : k = i
      · rw [hskip j t (Or.inr (Or.inl hti)), hskip t k (Or.inl hti),
          hskip j k (Or.inr (Or.inl hki)), hti, hki]
        exact min_le_left _ _
      · rw [hskip j t (Or.inr (Or.inl hti)), hskip t k (Or.inl hti),
          hhit j k hj hk hji hki (Ne.symm hjk), hti]
        omega
  · -- t was processed in an earlier round; the round for i preserves closure
    have ht' : t ∈ done := by
      rcases List.mem_cons.mp ht with h | h
      · exact absurd h hti
      · exact h
    have htc : t ∈ cs := hdone t ht'
    have f1 := hp t ht' j hj k hk hjk
    by_cases hji : j = i
    · by_cases hkt : k = t
      · rw [hskip j t (Or.inl hji), hskip t k (Or.inr (Or.inr hkt.symm)),
          hskip j k (Or.inl hji), hkt]
        exact min_le_left _ _
      · have hki : k ≠ i := fun h => hjk (hji.trans h.symm)
        rw [hskip j t (Or.inl hji), hskip j k (Or.inl hji),
          hhit t k htc hk hti hki hkt]
        rw [hji] at f1 ⊢
        omega
    · by_cases hki : k = i
      · by_cases hjt : j = t
        · rw [hskip j t (Or.inr (Or.inr hjt)),
            hskip t k (Or.inr (Or.inl hki)), hskip j k (Or.inr (Or.inl hki)), hjt]
          exact min_le_right _ _
        · rw [hskip t k (Or.inr (Or.inl hki)), hskip j k (Or.inr (Or.inl hki)),
            hhit j t hj htc hji hti (Ne.symm hjt)]
          rw [hki] at f1 ⊢
          omega
      · by_cases hjt : j = t
        · rw [hskip j t (Or.inr (Or.inr hjt)), hjt]
          exact min_le_right _ _
        · by_cases hkt : k = t
          · rw [hskip t k (Or.inr (Or.inr hkt.symm)), hkt]
            exact min_le_left _ _
          · have f2 := hp t ht' j hj i hi hji
            have f3 := hp t ht' i hi k hk fun h => hki h.symm
            rw [hhit j t hj htc hji hti (Ne.symm hjt),
              hhit t k htc hk hti hki hkt,
              hhit j k hj hk hji hki (Ne.symm hjk)]
            omega

theorem ClosedUnder.mono {p : String → String → Int} {cs d1 d2 : List String}
    (h : ClosedUnder p cs d2) (hsub : ∀ x ∈ d1, x ∈ d2) : ClosedUnder p cs d1 :=
  fun i hi => h i (hsub i hi)

/-- The outer fold over the intermediates `is` establishes the closure
property for all of them. -/
theorem strongest_paths_fold_closed (cs : List String) :
    ∀ (is : List String), (∀ x ∈ is, x ∈ cs) →
      ∀ (p : String → String → Int) (done : List String),
        (∀ x ∈ done, x ∈ cs) → ClosedUnder p cs done →
        ClosedUnder (is.foldl (fun p i => closureJ i cs cs p) p) cs (is ++ done) := by
  intro is
  induction is with
  | nil => intro _ p done _ hp; simpa using hp
  | cons i is ih =>
    intro hsub p done hdone hp
    have hi : i ∈ cs := hsub i (List.mem_cons_self i is)
    have hstep := closureJ_closed cs done i hi hdone p hp
    have hdone' : ∀ x ∈ i :: done, x ∈ cs := by
      intro x hx
      rcases List.mem_cons.mp hx with rfl | hx
      · exact hi
      · exact hdone x hx
    have := ih (fun x hx => hsub x (List.mem_cons_of_mem _ hx))
      (closureJ i cs cs p) (i :: done) hdone' hstep
    refine this.mono ?_
    intro x hx
    simp only [List.mem_append, List.mem_cons] at hx ⊢
    tauto

/-- The table computed by `_schulze_winners` is closed with respect to every
candidate as intermediate vertex. -/
theorem strongest_paths_closedUnder (d : String → String → Int) (cs : List String) :
    ClosedUnder (strongest_paths d cs) cs cs := by
  have h := strongest_paths_fold_closed cs cs (fun x hx => hx) d []
    (fun x hx => absurd hx (List.not_mem_nil x))
    (fun i hi => absurd hi (List.not_mem_nil i))
  rw [List.append_nil] at h
  exact h

/-! ### The undominated set is never empty -/

/-- On a closed table, strict domination (`p[(a,b)] > p[(b,a)]`) is
transitive: the classical argument of the Schulze method. -/
theorem closed_strict_trans {p : String → String → Int} {cs : List String}
    (hp : ClosedUnder p cs cs) :
    ∀ a ∈ cs, ∀ b ∈ cs, ∀ c ∈ cs,
      p b a < p a b → p c b < p b c → p c a < p a c := by
  intro a ha b hb c hc hab hbc
  by_cases hab' : a = b
  · rw [hab'] at hab; omega
  · by_cases hbc' : b = c
    · rw [hbc'] at hbc; omega
    · by_cases hac : a = c
      · subst hac; omega
      · have i1 := hp b hb a ha c hc hac
        have i2 := hp c hc b hb a ha (fun h => hab' h.symm)
        have i3 := hp a ha c hc b hb (fun h => hbc' h.symm)
        omega

/-- Any non-empty list carrying a transitive strict relation contains an
element that nothing in the list strictly dominates. -/
theorem exists_undominated (p : String → String → Int) :
    ∀ (l : List String),
      (∀ a ∈ l, ∀ b ∈ l, ∀ c ∈ l, p b a < p a b → p c b < p b c → p c a < p a c) →
      l ≠ [] → ∃ m ∈ l, ∀ b ∈ l, ¬ p m b < p b m := by
  intro l
  induction l with
  | nil => intro _ h; exact absurd rfl h
  | cons a l ih =>
    intro htr _
    rcases Decidable.em (l = []) with rfl | hl
    · refine ⟨a, List.mem_cons_self a _, ?_⟩
      intro b hb
      rcases List.mem_cons.mp hb with rfl | hb
      · omega
      · exact absurd hb (List.not_mem_nil b)
    · have htr' : ∀ x ∈ l, ∀ y ∈ l, ∀ z ∈ l,
          p y x < p x y → p z y < p y z → p z x < p x z := by
        intro x hx y hy z hz
        exact htr x (List.mem_cons_of_mem _ hx) y (List.mem_cons_of_mem _ hy)
          z (List.mem_cons_of_mem _ hz)
      obtain ⟨m, hm, hmax⟩ := ih htr' hl
      by_cases hbeat : p m a < p a m
      · -- a strictly dominates m, so a is undominated in a :: l
        refine ⟨a, List.mem_cons_self a l, ?_⟩
        intro b hb
        rcases List.mem_cons.mp hb with rfl | hb
        · omega
        · intro hba
          exact hmax b hb
            (htr b (List.mem_cons_of_mem _ hb) a (List.mem_cons_self a l)
              m (List.mem_cons_of_mem _ hm) hba hbeat)
      · refine ⟨m, List.mem_cons_of_mem _ hm, ?_⟩
        intro b hb
        rcases List.mem_cons.mp hb with rfl | hb
        · exact hbeat
        · exact hmax b hb

/-- Shared helper: `_schulze_winners` never returns an empty list on a
non-empty candidate list, whatever the link-strength table is. -/
theorem schulze_winners_ne_nil (d : String → String → Int)
    (cs : List String) (hcs : cs ≠ []) : schulze_winners d cs ≠ [] := by
  have hcl := strongest_paths_closedUnder d cs
  obtain ⟨m, hm, hmax⟩ :=
    exists_undominated (strongest_paths d cs) cs (closed_strict_trans hcl) hcs
  have hmem : m ∈ schulze_winners d cs := by
    unfold schulze_winners
    refine List.mem_filter.mpr ⟨hm, ?_⟩
    rw [List.all_eq_true]
    intro j hj
    have := hmax j hj
    simp only [decide_eq_true_eq]
    omega
  exact List.ne_nil_of_mem hmem

/-! ### The level-extraction loop terminates within `|C|` rounds -/

/-- Once every candidate is placed, further rounds change nothing. -/
theorem schulze_rounds_of_empty (d : String → String → Int) (cs : List String)
    (result : List (List String))
    (h : cs.filter (fun c => !(result.flatten.contains c)) = []) :
    ∀ fuel, schulze_rounds d cs result fuel = result := by
  intro fuel
  cases fuel with
  | zero => rfl
  | succ n =>
    simp only [schulze_rounds, h, List.isEmpty_nil, if_true]

/-- Placing a strictly larger set of candidates strictly shrinks the number
of distinct remaining candidates. -/
theorem dedup_length_lt {r' r : List String}
    (hsub : ∀ x ∈ r', x ∈ r) {w : String} (hw : w ∈ r) (hw' : w ∉ r') :
    r'.dedup.length < r.dedup.length := by
  rw [← List.card_toFinset, ← List.card_toFinset]
  apply Finset.card_lt_card
  have hsub' : r'.toFinset ⊆ r.toFinset := by
    intro x hx
    exact List.mem_toFinset.mpr (hsub x (List.mem_toFinset.mp hx))
  rw [Finset.ssubset_iff_of_subset hsub']
  exact ⟨w, List.mem_toFinset.mpr hw, fun h => hw' (List.mem_toFinset.mp h)⟩

/-- Shared helper: with at least as much fuel as there are distinct remaining
candidates, extra fuel never changes the outcome of the loop: the remaining
set strictly shrinks each round (because the appended winner set is a
non-empty subset of it), so the loop reaches its exit. -/
theorem schulze_rounds_stable_aux (d : String → String → Int) (cs : List String) :
    ∀ (fuel : Nat) (result : List (List String)) (k : Nat),
      (cs.filter (fun c => !(result.flatten.contains c))).dedup.length ≤ fuel →
      schulze_rounds d cs result (fuel + k) = schulze_rounds d cs result fuel := by
  intro fuel
  induction fuel with
  | zero =>
    intro result k h
    have hnil : cs.filter (fun c => !(result.flatten.contains c)) = [] := by
      rw [← List.dedup_eq_nil]
      exact List.length_eq_zero.mp (Nat.le_zero.mp h)
    rw [schulze_rounds_of_empty d cs result hnil (0 + k),
      schulze_rounds_of_empty d cs result hnil 0]
  | succ n ih =>
    intro result k h
    by_cases hemp : (cs.filter (fun c => !(result.flatten.contains c))).isEmpty
    · have hnil := List.isEmpty_iff.mp hemp
      rw [schulze_rounds_of_empty d cs result hnil _,
        schulze_rounds_of_empty d cs result hnil _]
    · have hstep : ∀ m, schulze_rounds d cs result (m + 1) =
          schulze_rounds d cs
            (result ++
              [schulze_winners d (cs.filter (fun c => !(result.flatten.contains c)))])
            m := by
        intro m
        simp only [schulze_rounds]
        rw [if_neg (fun hcon => hemp hcon)]
      have harith : (n + 1) + k = (n + k) + 1 := by omega
      rw [harith, hstep (n + k), hstep n]
      apply ih
      set remaining := cs.filter (fun c => !(result.flatten.contains c)) with hrem
      set winners := schulze_winners d remaining with hwin
      have hrne : remaining ≠ [] := fun hcon => hemp (by rw [hcon]; rfl)
      have hwne : winners ≠ [] := schulze_winners_ne_nil d remaining hrne
      obtain ⟨w, hw⟩ := List.exists_mem_of_ne_nil winners hwne
      have hwrem : w ∈ remaining := by
        rw [hwin] at hw
        unfold schulze_winners at hw
        exact (List.mem_filter.mp hw).1
      have hflat : (result ++ [winners]).flatten = result.flatten ++ winners := by
        simp
      have hsub : ∀ x ∈ cs.filter
          (fun c => !((result ++ [winners]).flatten.contains c)), x ∈ remaining := by
        intro x hx
        obtain ⟨hxcs, hxpred⟩ := List.mem_filter.mp hx
        have hxnot : x ∉ (result ++ [winners]).flatten := by simpa using hxpred
        rw [hrem]
        refine List.mem_filter.mpr ⟨hxcs, ?_⟩
        have hres : x ∉ result.flatten := fun hmem =>
          hxnot (by rw [hflat]; exact List.mem_append_left _ hmem)
        simpa using hres
      have hwout : w ∉ cs.filter
          (fun c => !((result ++ [winners]).flatten.contains c)) := by
        intro hcon
        obtain ⟨_, hpred⟩ := List.mem_filter.mp hcon
        have hnot : w ∉ (result ++ [winners]).flatten := by simpa using hpred
        exact hnot (by rw [hflat]; exact List.mem_append_right _ hw)
      have hlt := dedup_length_lt hsub hwrem hwout
      omega

/-- Claim C5: the winner-extraction loop of `_schulze_evaluate_routine` is
stable after at most `|C|` rounds: running it with any amount of extra fuel
beyond `candidates.length` returns the same result, because the remaining
candidate set strictly shrinks each round.  This holds for every
link-strength table `d`, in particular for every strength metric. -/
theorem schulze_rounds_stable (d : String → String → Int) (cs : List String)
    (k : Nat) :
    schulze_rounds d cs [] (cs.length + k) = schulze_rounds d cs [] cs.length := by
  apply schulze_rounds_stable_aux
  calc (cs.filter (fun c => !(([] : List (List String)).flatten.contains c))).dedup.length
      ≤ (cs.filter (fun c => !(([] : List (List String)).flatten.contains c))).length :=
        (List.dedup_sublist _).length_le
    _ ≤ cs.length := List.length_filter_le _ _

/-- The loop never appends an empty level (whatever the strength table),
because the winner set of the non-empty remaining set is never empty. -/
theorem schulze_rounds_no_empty_level (d : String → String → Int)
    (cs : List String) :
    ∀ (fuel : Nat) (result : List (List String)),
      [] ∉ result → [] ∉ schulze_rounds d cs result fuel := by
  intro fuel
  induction fuel with
  | zero => intro result h; exact h
  | succ n ih =>
    intro result h
    by_cases hemp : (cs.filter (fun c => !(result.flatten.contains c))).isEmpty
    · rw [schulze_rounds_of_empty d cs result (List.isEmpty_iff.mp hemp)]
      exact h
    · have hstep : schulze_rounds d cs result (n + 1) =
          schulze_rounds d cs
            (result ++
              [schulze_winners d (cs.filter (fun c => !(result.flatten.contains c)))])
            n := by
        simp only [schulze_rounds]
        rw [if_neg (fun hcon => hemp hcon)]
      rw [hstep]
      apply ih
      intro hcon
      rcases List.mem_append.mp hcon with hmem | hmem
      · exact h hmem
      · have hrne : cs.filter (fun c => !(result.flatten.contains c)) ≠ [] :=
          fun hnil => hemp (by rw [hnil]; rfl)
        have := schulze_winners_ne_nil d _ hrne
        rcases List.mem_singleton.mp hmem with h'
        exact this h'.symm

/-- Claim C2: the undominated set `W` computed by `_schulze_winners` on a
non-empty remaining candidate set is never empty -- for any integer
link-strength table, hence for the tables derived from `winning_votes` or
`margin` -- and consequently the winner-extraction loop never appends an
empty level.  The internal-consistency failure described by the spec is
therefore unreachable (the code carries no such error path; none is ever
exercised). -/
theorem schulze_winners_never_empty :
    (∀ (d : String → String → Int) (remaining : List String),
      remaining ≠ [] → schulze_winners d remaining ≠ []) ∧
    ∀ (d : String → String → Int) (cs : List String) (fuel : Nat),
      [] ∉ schulze_rounds d cs [] fuel :=
  ⟨schulze_winners_ne_nil,
   fun d cs fuel =>
     schulze_rounds_no_empty_level d cs fuel [] (List.not_mem_nil [])⟩

theorem schulze_winners_never_empty_witness :
    schulze_winners (fun _ _ => 0) ["a"] ≠ [] ∧
      [] ∉ schulze_rounds (fun _ _ => 0) ["a"] [] 1 :=
  ⟨schulze_winners_never_empty.1 (fun _ _ => 0) ["a"] (by decide),
   schulze_winners_never_empty.2 (fun _ _ => 0) ["a"] 1⟩

/-- Claim C3 (amended): the closed strength table satisfies
`p[(j,k)] ≥ min(p[(j,i)], p[(i,k)])` for all candidates `i`, `j`, `k` with
`j ≠ k` (the inequality can fail when `j = k`, because diagonal entries are
never updated by the loop). -/
theorem strongest_paths_triangle (d : String → String → Int) (cs : List String) :
    ∀ i ∈ cs, ∀ j ∈ cs, ∀ k ∈ cs, j ≠ k →
      min (strongest_paths d cs j i) (strongest_paths d cs i k) ≤
        strongest_paths d cs j k :=
  fun i hi j hj k hk hjk => strongest_paths_closedUnder d cs i hi j hj k hk hjk

/-- Claim C3, counterexample to the claim as stated: with non-distinct
`j = k`, the inequality fails.  Over candidates `a, b` with
`d[(a,b)] = d[(b,a)] = 1` and `d[(a,a)] = 0`, the computed table leaves the
diagonal entry `p[(a,a)] = 0` strictly below
`min(p[(a,b)], p[(b,a)]) = 1`. -/
theorem strongest_paths_triangle_cex :
    ¬ (min (strongest_paths (fun x y => if x = y then 0 else 1) ["a", "b"] "a" "b")
        (strongest_paths (fun x y => if x = y then 0 else 1) ["a", "b"] "b" "a") ≤
       strongest_paths (fun x y => if x = y then 0 else 1) ["a", "b"] "a" "a") := by
  decide

theorem strongest_paths_triangle_witness :
    min (strongest_paths (fun x y => if x = y then 0 else 1) ["a", "b", "c"] "a" "b")
      (strongest_paths (fun x y => if x = y then 0 else 1) ["a", "b", "c"] "b" "c") ≤
      strongest_paths (fun x y => if x = y then 0 else 1) ["a", "b", "c"] "a" "c" :=
  strongest_paths_triangle (fun x y => if x = y then 0 else 1) ["a", "b", "c"]
    "b" (by decide) "a" (by decide) "c" (by decide) (by decide)

/-! ### Zero ballots: everything ties -/

theorem closureK_const (c : Int) (i j : String) :
    ∀ (ks : List String) (p : String → String → Int),
      (∀ a b, p a b = c) → ∀ a b, closureK i j ks p a b = c := by
  intro ks
  induction ks with
  | nil => intro p hp a b; exact hp a b
  | cons k ks ih =>
    intro p hp a b
    rw [closureK_cons]
    rcases Decidable.em (k = i ∨ k = j) with h | h
    · rw [if_pos h]; exact ih p hp a b
    · rw [if_neg h]
      apply ih
      intro a' b'
      simp [updateEntry, hp]

theorem closureJ_const (c : Int) (i : String) :
    ∀ (js ks : List String) (p : String → String → Int),
      (∀ a b, p a b = c) → ∀ a b, closureJ i js ks p a b = c := by
  intro js
  induction js with
  | nil => intro ks p hp a b; exact hp a b
  | cons j js ih =>
    intro ks p hp a b
    rw [closureJ_cons]
    rcases Decidable.em (i = j) with h | h
    · rw [if_pos h]; exact ih ks p hp a b
    · rw [if_neg h]
      exact ih ks (closureK i j ks p) (closureK_const c i j ks p hp) a b

theorem strongest_paths_const (c : Int) (cs : List String)
    (d : String → String → Int) (hd : ∀ a b, d a b = c) :
    ∀ a b, strongest_paths d cs a b = c := by
  unfold strongest_paths
  have : ∀ (is : List String) (p : String → String → Int), (∀ a b, p a b = c) →
      ∀ a b, (is.foldl (fun p i => closureJ i cs cs p) p) a b = c := by
    intro is
    induction is with
    | nil => intro p hp a b; exact hp a b
    | cons i is ih =>
      intro p hp a b
      rw [List.foldl_cons]
      exact ih (closureJ i cs cs p) (closureJ_const c i cs cs p hp) a b
  exact this cs d hd

/-- On a constant strength table every candidate is undominated. -/
theorem schulze_winners_const (c : Int) (d : String → String → Int)
    (hd : ∀ a b, d a b = c) (cs : List String) : schulze_winners d cs = cs := by
  unfold schulze_winners
  rw [List.filter_eq_self]
  intro i _
  rw [List.all_eq_true]
  intro j _
  rw [strongest_paths_const c cs d hd j i, strongest_paths_const c cs d hd i j]
  simp

/-- Claim C6: with zero ballots, every pairwise count is 0, every
winning-votes strength is 0, and evaluation returns a single level holding
all candidates in their original order. -/
theorem schulze_evaluate_no_votes (cs : List String) (hne : cs ≠ [])
    (hok : check_consistency [] cs = .ok ()) :
    (schulze_evaluate_routine [] cs winning_votes).2 = [cs] ∧
      schulze_evaluate [] cs winning_votes = .ok (as_vote_string [cs]) := by
  have hd : ∀ a b, link_strength [] winning_votes a b = 0 := fun a b => rfl
  have hrounds : schulze_rounds (link_strength [] winning_votes) cs [] cs.length
      = [cs] := by
    cases hlen : cs.length with
    | zero => exact absurd (List.length_eq_zero.mp hlen) hne
    | succ n =>
      have hfil : cs.filter
          (fun c => !((([] : List (List String)).flatten).contains c)) = cs :=
        List.filter_eq_self.mpr fun a _ => rfl
      have hemp : cs.isEmpty = false := by
        cases cs with
        | nil => exact absurd rfl hne
        | cons x xs => rfl
      have hstep : schulze_rounds (link_strength [] winning_votes) cs [] (n + 1) =
          schulze_rounds (link_strength [] winning_votes) cs [cs] n := by
        simp only [schulze_rounds, hfil]
        rw [if_neg (by rw [hemp]; exact fun hcon => Bool.false_ne_true hcon),
          schulze_winners_const 0 _ hd cs]
        rfl
      rw [hstep]
      apply schulze_rounds_of_empty
      rw [List.filter_eq_nil_iff]
      intro a ha
      simp [ha]
  constructor
  · simp only [schulze_evaluate_routine]
    exact hrounds
  · unfold schulze_evaluate
    rw [hok]
    simp only [schulze_evaluate_routine]
    rw [hrounds]

theorem schulze_evaluate_no_votes_witness :
    (schulze_evaluate_routine [] ["a", "b"] winning_votes).2 = [["a", "b"]] ∧
      schulze_evaluate [] ["a", "b"] winning_votes = .ok (as_vote_string [["a", "b"]]) :=
  schulze_evaluate_no_votes ["a", "b"] (by decide) rfl

/-! ### Concrete validation and evaluation scenarios -/

/-- Claim C4, counterexample to the claim as stated: with candidates
`('e','h','b','f')` the ballot `'e=e>b>f'` does not mention `'h'`, so the
set-equality check fails first and the error raised is the missing-candidate
one, not the duplicate-candidate one. -/
theorem schulze_evaluate_duplicate_cex :
    schulze_evaluate ["e=e>b>f"] ["e", "h", "b", "f"] winning_votes =
        .error "Missing candidate in vote string." ∧
      schulze_evaluate ["e=e>b>f"] ["e", "h", "b", "f"] winning_votes ≠
        .error "Every candidate must occur exactly once in each vote." :=
  ⟨rfl, by decide⟩

/-- Claim C4 (amended): over candidates `('e','h','b','f')`, the ballot
`'e=e>b>f'` raises the missing-candidate error (it omits `'h'`; the
set-equality check runs before the duplicate check), while a ballot covering
every candidate with a repetition, such as `'e=e>h>b>f'`, raises the
duplicate-candidate error. -/
theorem schulze_evaluate_duplicate_error :
    schulze_evaluate ["e=e>b>f"] ["e", "h", "b", "f"] winning_votes =
        .error "Missing candidate in vote string." ∧
      schulze_evaluate ["e=e>h>b>f"] ["e", "h", "b", "f"] winning_votes =
        .error "Every candidate must occur exactly once in each vote." :=
  ⟨rfl, rfl⟩

/-- Claim C8: the reference scenario of the test suite, evaluated under
`winning_votes`. -/
theorem schulze_evaluate_reference_scenario :
    schulze_evaluate
      ["0>1>2>3>4", "4>3>2>1>0", "4=0>1=3>2", "3>0>2=4>1", "1>2=3>4=0", "2>1>4>0>3"]
      ["0", "1", "2", "3", "4"] winning_votes = .ok "0=1>3>2>4" := rfl

/-! ### The pairwise-preference table -/

theorem lookup_table_map (f : String × String → Nat) :
    ∀ (keys : List (String × String)) (q : String × String), q ∈ keys →
      List.lookup q (keys.map (fun k => (k, f k))) = some (f q) := by
  intro keys
  induction keys with
  | nil => intro q hq; exact absurd hq (List.not_mem_nil q)
  | cons k keys ih =>
    intro q hq
    by_cases hqk : q = k
    · subst hqk; simp [List.lookup]
    · have hne : (q == k) = false := beq_eq_false_iff_ne.mpr hqk
      simp only [List.map_cons, List.lookup, hne]
      apply ih
      rcases List.mem_cons.mp hq with h | h
      · exact absurd h hqk
      · exact h

theorem mem_pairKeys {cs : List String} {q : String × String} :
    q ∈ pairKeys cs ↔ q.1 ∈ cs ∧ q.2 ∈ cs := by
  obtain ⟨x, y⟩ := q
  unfold pairKeys
  simp only [List.mem_flatten, List.mem_map]
  constructor
  · rintro ⟨l, ⟨a, ha, rfl⟩, hmem⟩
    obtain ⟨b, hb, hab⟩ := List.mem_map.mp hmem
    injection hab with h1 h2
    subst h1; subst h2
    exact ⟨ha, hb⟩
  · rintro ⟨hx, hy⟩
    exact ⟨cs.map (fun y => (x, y)), ⟨x, hx, rfl⟩, List.mem_map.mpr ⟨y, hy, rfl⟩⟩

theorem countP_disjoint {α : Type} (p q : α → Bool) :
    ∀ l : List α, (∀ a ∈ l, p a = true → q a = false) →
      l.countP p + l.countP q ≤ l.length := by
  intro l
  induction l with
  | nil => intro _; simp
  | cons a l ih =>
    intro h
    rw [List.countP_cons, List.countP_cons, List.length_cons]
    have hl := ih fun x hx => h x (List.mem_cons_of_mem _ hx)
    cases hpa : p a
    · cases hqa : q a <;> simp <;> omega
    · have hqa := h a (List.mem_cons_self a l) hpa
      rw [hqa]
      simp
      omega

/-- A vote never ranks `x` above `y` and `y` above `x` at once. -/
theorem ranksAbove_asymm (v : List (List String)) (x y : String) :
    ranksAbove v x y = true → ranksAbove v y x = false := by
  unfold ranksAbove
  cases hx : subindex v x <;> cases hy : subindex v y <;> simp
  omega

/-- A vote never ranks `x` strictly above itself. -/
theorem ranksAbove_self (v : List (List String)) (x : String) :
    ranksAbove v x x = false := by
  unfold ranksAbove
  cases hx : subindex v x <;> simp

theorem pairwise_preference_ok (votes cs : List String)
    (m : List ((String × String) × Nat))
    (hm : pairwise_preference votes cs = .ok m) :
    m = pairwise_preference_table votes cs := by
  unfold pairwise_preference at hm
  cases hcheck : check_consistency votes cs with
  | error e => rw [hcheck] at hm; exact absurd hm (by simp)
  | ok u => rw [hcheck] at hm; cases u; exact (Except.ok.inj hm).symm

/-- Claim C10: on validated input, opposite entries of the pairwise-preference
table sum to at most the number of ballots, and diagonal entries are 0. -/
theorem pairwise_preference_bounds (votes cs : List String)
    (m : List ((String × String) × Nat))
    (hm : pairwise_preference votes cs = .ok m) :
    (∀ x ∈ cs, ∀ y ∈ cs, x ≠ y →
      (List.lookup (x, y) m).getD 0 + (List.lookup (y, x) m).getD 0 ≤
        votes.length) ∧
    ∀ x ∈ cs, List.lookup (x, x) m = some 0 := by
  have hm' := pairwise_preference_ok votes cs m hm
  subst hm'
  constructor
  · intro x hx y hy _
    have h1 : List.lookup (x, y) (pairwise_preference_table votes cs) =
        some (preferCount votes x y) :=
      lookup_table_map _ (pairKeys cs) (x, y) (mem_pairKeys.mpr ⟨hx, hy⟩)
    have h2 : List.lookup (y, x) (pairwise_preference_table votes cs) =
        some (preferCount votes y x) :=
      lookup_table_map _ (pairKeys cs) (y, x) (mem_pairKeys.mpr ⟨hy, hx⟩)
    rw [h1, h2]
    simp only [Option.getD_some]
    have hb := countP_disjoint (fun v => ranksAbove v x y) (fun v => ranksAbove v y x)
      (as_vote_tuples votes) (fun v _ hv => ranksAbove_asymm v x y hv)
    unfold preferCount
    unfold as_vote_tuples at hb ⊢
    rw [List.length_map] at hb
    exact hb
  · intro x hx
    have h1 : List.lookup (x, x) (pairwise_preference_table votes cs) =
        some (preferCount votes x x) :=
      lookup_table_map _ (pairKeys cs) (x, x) (mem_pairKeys.mpr ⟨hx, hx⟩)
    rw [h1]
    have : preferCount votes x x = 0 :=
      List.countP_eq_zero.mpr fun v _ => by rw [ranksAbove_self v x]; exact fun h => nomatch h
    rw [this]

theorem pairwise_preference_bounds_witness :
    (∀ x ∈ ["a", "b"], ∀ y ∈ ["a", "b"], x ≠ y →
      (List.lookup (x, y) (pairwise_preference_table ["a>b"] ["a", "b"])).getD 0 +
        (List.lookup (y, x) (pairwise_preference_table ["a>b"] ["a", "b"])).getD 0 ≤
        (["a>b"] : List String).length) ∧
    ∀ x ∈ ["a", "b"],
      List.lookup (x, x) (pairwise_preference_table ["a>b"] ["a", "b"]) = some 0 :=
  pairwise_preference_bounds ["a>b"] ["a", "b"] _ rfl

/-- Claim C9, counterexample to the claim as stated: the dict built by
`_pairwise_preference` is keyed by all ordered pairs of candidates,
including the self-pairs `(x, x)`, so its domain is not "exactly the ordered
pairs of distinct candidates". -/
theorem pairwise_preference_domain_cex :
    pairwise_preference ["a>b"] ["a", "b"] =
        .ok [(("a", "a"), 0), (("a", "b"), 1), (("b", "a"), 0), (("b", "b"), 0)] ∧
      List.lookup ("a", "a") (pairwise_preference_table ["a>b"] ["a", "b"]) =
        some 0 :=
  ⟨rfl, rfl⟩

/-- Claim C9 (amended): on validated input, `pairwise_preference` returns the
table keyed by all ordered pairs of candidates (the self-pairs included, in
the dict's insertion order), where the entry at `(x, y)` is the number of
ballots ranking `x` strictly above `y` (`x`'s level index strictly below
`y`'s; ties count for neither side), and every self-pair maps to 0. -/
theorem pairwise_preference_entries (votes cs : List String)
    (m : List ((String × String) × Nat))
    (hm : pairwise_preference votes cs = .ok m) :
    m.map Prod.fst = pairKeys cs ∧
      (∀ x ∈ cs, ∀ y ∈ cs,
        List.lookup (x, y) m = some (preferCount votes x y)) ∧
      ∀ x ∈ cs, List.lookup (x, x) m = some 0 := by
  have hm' := pairwise_preference_ok votes cs m hm
  subst hm'
  refine ⟨?_, ?_, ?_⟩
  · unfold pairwise_preference_table
    rw [List.map_map]
    exact List.map_id (pairKeys cs)
  · intro x hx y hy
    exact lookup_table_map _ (pairKeys cs) (x, y) (mem_pairKeys.mpr ⟨hx, hy⟩)
  · intro x hx
    have h1 : List.lookup (x, x) (pairwise_preference_table votes cs) =
        some (preferCount votes x x) :=
      lookup_table_map _ (pairKeys cs) (x, x) (mem_pairKeys.mpr ⟨hx, hx⟩)
    rw [h1]
    have : preferCount votes x x = 0 :=
      List.countP_eq_zero.mpr fun v _ => by rw [ranksAbove_self v x]; exact fun h => nomatch h
    rw [this]

theorem pairwise_preference_entries_witness :
    (pairwise_preference_table ["a>b"] ["a", "b"]).map Prod.fst =
        pairKeys ["a", "b"] ∧
      (∀ x ∈ ["a", "b"], ∀ y ∈ ["a", "b"],
        List.lookup (x, y) (pairwise_preference_table ["a>b"] ["a", "b"]) =
          some (preferCount ["a>b"] x y)) ∧
      ∀ x ∈ ["a", "b"],
        List.lookup (x, x) (pairwise_preference_table ["a>b"] ["a", "b"]) = some 0 :=
  pairwise_preference_entries ["a>b"] ["a", "b"] _ rfl

/-! ### Invariance under vote reordering and reordering of tied candidates -/

theorem contains_congr_of_perm {l l' : List String} (h : l.Perm l') (x : String) :
    l.contains x = l'.contains x := by
  by_cases hx : x ∈ l
  · simp [hx, h.mem_iff.mp hx]
  · have hx' : x ∉ l' := fun hc => hx (h.mem_iff.mpr hc)
    simp [hx, hx']

theorem findIdx?_congr (p q : List String → Bool) :
    ∀ {v v' : List (List String)}, List.Forall₂ (fun a b => p a = q b) v v' →
      ∀ i, List.findIdx? p v i = List.findIdx? q v' i := by
  intro v v' h
  induction h with
  | nil => intro i; rfl
  | cons hab _ ih =>
    intro i
    rw [List.findIdx?_cons, List.findIdx?_cons, hab]
    split
    · rfl
    · exact ih (i + 1)

/-- Permuting candidates inside the levels of a vote does not change any
candidate's level index. -/
theorem subindex_perm {v v' : List (List String)}
    (h : List.Forall₂ List.Perm v v') (e : String) :
    subindex v e = subindex v' e := by
  unfold subindex
  exact findIdx?_congr _ _
    (h.imp fun a b hp => contains_congr_of_perm hp e) 0

theorem ranksAbove_perm {v v' : List (List String)}
    (h : List.Forall₂ List.Perm v v') (x y : String) :
    ranksAbove v x y = ranksAbove v' x y := by
  unfold ranksAbove
  rw [subindex_perm h x, subindex_perm h y]

theorem forall₂_map_map {α β γ δ : Type} {R : α → β → Prop} {S : γ → δ → Prop}
    (f : α → γ) (g : β → δ) (hfg : ∀ a b, R a b → S (f a) (g b)) :
    ∀ {l₁ : List α} {l₂ : List β}, List.Forall₂ R l₁ l₂ →
      List.Forall₂ S (l₁.map f) (l₂.map g) := by
  intro l₁ l₂ h
  induction h with
  | nil => exact List.Forall₂.nil
  | cons hab _ ih => exact List.Forall₂.cons (hfg _ _ hab) ih

theorem countP_congr_forall₂ {α β : Type} (p : α → Bool) (q : β → Bool) :
    ∀ {l₁ : List α} {l₂ : List β},
      List.Forall₂ (fun a b => p a = q b) l₁ l₂ → l₁.countP p = l₂.countP q := by
  intro l₁ l₂ h
  induction h with
  | nil => rfl
  | cons hab _ ih => rw [List.countP_cons, List.countP_cons, hab, ih]

theorem flatten_perm_of_forall₂ :
    ∀ {v v' : List (List String)}, List.Forall₂ List.Perm v v' →
      v.flatten.Perm v'.flatten := by
  intro v v' h
  induction h with
  | nil => exact List.Perm.refl []
  | cons hab _ ih =>
    rw [List.flatten_cons, List.flatten_cons]
    exact hab.append ih

theorem all_congr_of_perm {l l' : List String} (h : l.Perm l') (p : String → Bool) :
    l.all p = l'.all p := by
  rw [Bool.eq_iff_iff, List.all_eq_true, List.all_eq_true]
  exact ⟨fun ha x hx => ha x (h.mem_iff.mpr hx), fun ha x hx => ha x (h.mem_iff.mp hx)⟩

/-- `_check_consistency` treats a vote only through the candidate multiset of
each level, so permuting tied candidates changes nothing. -/
theorem check_vote_congr (cs : List String) {v v' : List (List String)}
    (h : List.Forall₂ List.Perm v v') : check_vote cs v = check_vote cs v' := by
  have hflat := flatten_perm_of_forall₂ h
  have h1 : (cs.all fun c => v.flatten.contains c) =
      (cs.all fun c => v'.flatten.contains c) := by
    rw [Bool.eq_iff_iff, List.all_eq_true, List.all_eq_true]
    constructor <;> intro ha x hx
    · rw [← contains_congr_of_perm hflat x]; exact ha x hx
    · rw [contains_congr_of_perm hflat x]; exact ha x hx
  have h2 : (v.flatten.all fun c => cs.contains c) =
      (v'.flatten.all fun c => cs.contains c) := all_congr_of_perm hflat _
  have h3 : v.flatten.length = v'.flatten.length := hflat.length_eq
  have h4 : v.flatten.dedup.length = v'.flatten.dedup.length :=
    hflat.dedup.length_eq
  unfold check_vote
  rw [h1, h2, h3, h4]

theorem check_votes_ok_iff (cs : List String) :
    ∀ l : List (List (List String)),
      check_votes cs l = .ok () ↔ ∀ v ∈ l, check_vote cs v = none := by
  intro l
  induction l with
  | nil => simp [check_votes]
  | cons v l ih =>
    unfold check_votes
    cases hcv : check_vote cs v with
    | some e =>
      simp only [hcv]
      constructor
      · intro h; exact absurd h (by simp)
      · intro h
        have := h v (List.mem_cons_self v l)
        rw [hcv] at this
        exact absurd this (by simp)
    | none =>
      simp only [hcv]
      rw [ih]
      constructor
      · intro h w hw
        rcases List.mem_cons.mp hw with rfl | hw
        · exact hcv
        · exact h w hw
      · intro h w hw
        exact h w (List.mem_cons_of_mem _ hw)

theorem forall₂_mem_right {α β : Type} {R : α → β → Prop} :
    ∀ {l₁ : List α} {l₂ : List β}, List.Forall₂ R l₁ l₂ →
      ∀ {b}, b ∈ l₂ → ∃ a ∈ l₁, R a b := by
  intro l₁ l₂ h
  induction h with
  | nil => intro b hb; exact absurd hb (List.not_mem_nil b)
  | cons hab _ ih =>
    intro b hb
    rcases List.mem_cons.mp hb with rfl | hb
    · exact ⟨_, List.mem_cons_self _ _, hab⟩
    · obtain ⟨a, ha, hR⟩ := ih hb
      exact ⟨a, List.mem_cons_of_mem _ ha, hR⟩

/-- Claim C7: `schulze_evaluate` returns an identical result when the ballot
collection is reordered and when candidates tied within ballot levels are
reordered: `votes'` is reachable from `votes` by replacing each vote with one
whose levels are permutations (level by level) and then permuting the
collection.  This holds for every candidate sequence and strength metric, on
validated input. -/
theorem schulze_evaluate_vote_order_invariant
    (cs : List String) (strength : Nat → Nat → Nat → Int)
    (votes votes' : List String)
    (hrel : ∃ mid : List String,
      List.Forall₂
        (fun a b => List.Forall₂ List.Perm (as_vote_tuple a) (as_vote_tuple b))
        votes mid ∧ mid.Perm votes')
    (hok : check_consistency votes cs = .ok ()) :
    schulze_evaluate votes cs strength = schulze_evaluate votes' cs strength := by
  obtain ⟨mid, hfa, hperm⟩ := hrel
  have hcount : ∀ x y, preferCount votes x y = preferCount votes' x y := by
    intro x y
    have h1 : preferCount votes x y = preferCount mid x y := by
      unfold preferCount as_vote_tuples
      exact countP_congr_forall₂ _ _
        (forall₂_map_map as_vote_tuple as_vote_tuple
          (fun a b hab => ranksAbove_perm hab x y) hfa)
    have h2 : preferCount mid x y = preferCount votes' x y := by
      unfold preferCount as_vote_tuples
      exact List.Perm.countP_eq _ (hperm.map as_vote_tuple)
    rw [h1, h2]
  have hlen : votes.length = votes'.length := by
    rw [hfa.length_eq, hperm.length_eq]
  have hd : link_strength votes strength = link_strength votes' strength := by
    funext x y
    unfold link_strength
    rw [hcount x y, hcount y x, hlen]
  have hok' : check_consistency votes' cs = .ok () := by
    unfold check_consistency at hok ⊢
    by_cases hchar : cs.any (fun c => c.data.contains '>' || c.data.contains '=')
    · rw [if_pos hchar] at hok
      exact absurd hok (by simp)
    · rw [if_neg hchar] at hok ⊢
      rw [check_votes_ok_iff] at hok ⊢
      intro v hv
      obtain ⟨s', hs', rfl⟩ := List.mem_map.mp hv
      have hs'mid : s' ∈ mid := hperm.mem_iff.mpr hs'
      obtain ⟨s, hs, hR⟩ := forall₂_mem_right hfa hs'mid
      rw [← check_vote_congr cs hR]
      exact hok (as_vote_tuple s) (List.mem_map.mpr ⟨s, hs, rfl⟩)
  have hres : (schulze_evaluate_routine votes cs strength).2 =
      (schulze_evaluate_routine votes' cs strength).2 := by
    show schulze_rounds (link_strength votes strength) cs [] cs.length =
      schulze_rounds (link_strength votes' strength) cs [] cs.length
    rw [hd]
  unfold schulze_evaluate
  rw [hok, hok', hres]

theorem schulze_evaluate_vote_order_invariant_witness :
    schulze_evaluate ["a=b", "a>b"] ["a", "b"] winning_votes =
      schulze_evaluate ["a>b", "b=a"] ["a", "b"] winning_votes :=
  schulze_evaluate_vote_order_invariant ["a", "b"] winning_votes
    ["a=b", "a>b"] ["a>b", "b=a"]
    ⟨["b=a", "a>b"],
      List.Forall₂.cons (by decide)
        (List.Forall₂.cons (by decide) List.Forall₂.nil),
      by decide⟩
    rfl

/-! ### Winning votes versus margin -/

/-- A monotone reweighting of the strength table commutes with the
widest-path computation (innermost loop). -/
theorem closureK_map (g : Int → Int) (hg : Monotone g) (i j : String) :
    ∀ (ks : List String) (p q : String → String → Int),
      (∀ a b, q a b = g (p a b)) →
      ∀ a b, closureK i j ks q a b = g (closureK i j ks p a b) := by
  intro ks
  induction ks with
  | nil => intro p q hpq a b; exact hpq a b
  | cons k ks ih =>
    intro p q hpq a b
    rw [closureK_cons, closureK_cons]
    rcases Decidable.em (k = i ∨ k = j) with h | h
    · rw [if_pos h, if_pos h]; exact ih p q hpq a b
    · rw [if_neg h, if_neg h]
      apply ih
      intro a' b'
      unfold updateEntry
      by_cases hab : a' = j ∧ b' = k
      · rw [if_pos hab, if_pos hab, hpq j k, hpq j i, hpq i k,
          ← hg.map_min, ← hg.map_max]
      · rw [if_neg hab, if_neg hab]; exact hpq a' b'

theorem closureJ_map (g : Int → Int) (hg : Monotone g) (i : String) :
    ∀ (js ks : List String) (p q : String → String → Int),
      (∀ a b, q a b = g (p a b)) →
      ∀ a b, closureJ i js ks q a b = g (closureJ i js ks p a b) := by
  intro js
  induction js with
  | nil => intro ks p q hpq a b; exact hpq a b
  | cons j js ih =>
    intro ks p q hpq a b
    rw [closureJ_cons, closureJ_cons]
    rcases Decidable.em (i = j) with h | h
    · rw [if_pos h, if_pos h]; exact ih ks p q hpq a b
    · rw [if_neg h, if_neg h]
      exact ih ks (closureK i j ks p) (closureK i j ks q)
        (closureK_map g hg i j ks p q hpq) a b

theorem strongest_paths_map (g : Int → Int) (hg : Monotone g)
    (cs : List String) (d dq : String → String → Int)
    (hq : ∀ a b, dq a b = g (d a b)) :
    ∀ a b, strongest_paths dq cs a b = g (strongest_paths d cs a b) := by
  unfold strongest_paths
  have main : ∀ (is : List String) (p q : String → String → Int),
      (∀ a b, q a b = g (p a b)) →
      ∀ a b, (is.foldl (fun p i => closureJ i cs cs p) q) a b =
        g ((is.foldl (fun p i => closureJ i cs cs p) p) a b) := by
    intro is
    induction is with
    | nil => intro p q hpq a b; exact hpq a b
    | cons i is ih =>
      intro p q hpq a b
      rw [List.foldl_cons, List.foldl_cons]
      exact ih (closureJ i cs cs p) (closureJ i cs cs q)
        (closureJ_map g hg i cs cs p q hpq) a b
  exact main cs d dq hq

/-- The widest-path computation never decreases an entry. -/
theorem closureK_ge (i j : String) :
    ∀ (ks : List String) (p0 p : String → String → Int),
      (∀ a b, p0 a b ≤ p a b) → ∀ a b, p0 a b ≤ closureK i j ks p a b := by
  intro ks
  induction ks with
  | nil => intro p0 p h a b; exact h a b
  | cons k ks ih =>
    intro p0 p h a b
    rw [closureK_cons]
    rcases Decidable.em (k = i ∨ k = j) with hk | hk
    · rw [if_pos hk]; exact ih p0 p h a b
    · rw [if_neg hk]
      apply ih
      intro a' b'
      unfold updateEntry
      by_cases hab : a' = j ∧ b' = k
      · rw [if_pos hab]
        calc p0 a' b' ≤ p a' b' := h a' b'
          _ = p j k := by rw [hab.1, hab.2]
          _ ≤ max (p j k) (min (p j i) (p i k)) := le_max_left _ _
      · rw [if_neg hab]; exact h a' b'

theorem closureJ_ge (i : String) :
    ∀ (js ks : List String) (p0 p : String → String → Int),
      (∀ a b, p0 a b ≤ p a b) → ∀ a b, p0 a b ≤ closureJ i js ks p a b := by
  intro js
  induction js with
  | nil => intro ks p0 p h a b; exact h a b
  | cons j js ih =>
    intro ks p0 p h a b
    rw [closureJ_cons]
    rcases Decidable.em (i = j) with hj | hj
    · rw [if_pos hj]; exact ih ks p0 p h a b
    · rw [if_neg hj]
      exact ih ks p0 (closureK i j ks p)
        (fun a' b' => closureK_ge i j ks p0 p h a' b') a b

theorem strongest_paths_ge (d : String → String → Int) (cs : List String) :
    ∀ a b, d a b ≤ strongest_paths d cs a b := by
  unfold strongest_paths
  have main : ∀ (is : List String) (p0 p : String → String → Int),
      (∀ a b, p0 a b ≤ p a b) →
      ∀ a b, p0 a b ≤ (is.foldl (fun p i => closureJ i cs cs p) p) a b := by
    intro is
    induction is with
    | nil => intro p0 p h a b; exact h a b
    | cons i is ih =>
      intro p0 p h a b
      rw [List.foldl_cons]
      exact ih p0 (closureJ i cs cs p)
        (fun a' b' => closureJ_ge i cs cs p0 p h a' b') a b
  exact main cs d d (fun a b => le_refl _)

theorem all_congr_fun {l : List String} {p q : String → Bool}
    (h : ∀ x ∈ l, p x = q x) : l.all p = l.all q := by
  rw [Bool.eq_iff_iff, List.all_eq_true, List.all_eq_true]
  constructor <;> intro ha x hx
  · rw [← h x hx]; exact ha x hx
  · rw [h x hx]; exact ha x hx

/-- If `dq` is a monotone reweighting of `d` that is strict wherever the
larger of two compared values is non-negative, and opposite entries of `d`
never are both negative, then both tables produce the same Schulze winners. -/
theorem schulze_winners_map (g : Int → Int) (hg : Monotone g)
    (hstrict : ∀ a b : Int, a < b → 0 ≤ b → g a < g b)
    (d dq : String → String → Int)
    (hd0 : ∀ x y, 0 ≤ max (d x y) (d y x))
    (hq : ∀ x y, dq x y = g (d x y)) (cs : List String) :
    schulze_winners dq cs = schulze_winners d cs := by
  have hmap := strongest_paths_map g hg cs d dq hq
  have hge := strongest_paths_ge d cs
  have hiff : ∀ a b : String,
      (strongest_paths dq cs a b ≤ strongest_paths dq cs b a) ↔
        (strongest_paths d cs a b ≤ strongest_paths d cs b a) := by
    intro a b
    rw [hmap a b, hmap b a]
    constructor
    · intro hle
      by_contra hlt
      push_neg at hlt
      have h0 : (0 : Int) ≤ strongest_paths d cs a b := by
        have h1 := hd0 a b
        have h2 := hge a b
        have h3 := hge b a
        omega
      have := hstrict _ _ hlt h0
      omega
    · exact fun hle => hg hle
  unfold schulze_winners
  apply List.filter_congr
  intro i _
  apply all_congr_fun
  intro j _
  exact decide_eq_decide.mpr (hiff j i)

/-- If two strength tables produce the same winners on every remaining set,
the whole extraction loop gives the same result. -/
theorem schulze_rounds_congr (d dq : String → String → Int)
    (hw : ∀ remaining : List String,
      schulze_winners dq remaining = schulze_winners d remaining)
    (cs : List String) :
    ∀ (fuel : Nat) (result : List (List String)),
      schulze_rounds dq cs result fuel = schulze_rounds d cs result fuel := by
  intro fuel
  induction fuel with
  | zero => intro result; rfl
  | succ n ih =>
    intro result
    simp only [schulze_rounds]
    by_cases hemp : (cs.filter (fun c => !(result.flatten.contains c))).isEmpty
    · rw [if_pos hemp, if_pos hemp]
    · rw [if_neg hemp, if_neg hemp, hw, ih]

theorem gwv_pos_branch_nonneg (n : Nat) {m : Int} (hm : 0 < m) :
    0 ≤ ((n : Int) + 1) * ((n : Int) + m) / 2 - n := by
  have h1 : 2 * (n : Int) ≤ ((n : Int) + 1) * ((n : Int) + m) := by
    have h2 := mul_le_mul_of_nonneg_left
      (show (n : Int) ≤ (n : Int) + m by omega)
      (show (0 : Int) ≤ (n : Int) + 1 by omega)
    have h3 : (n : Int) * ((n : Int) + 1) = (n : Int) * (n : Int) + n := by ring
    have h4 : (0 : Int) ≤ (n : Int) * (n : Int) := mul_nonneg (by omega) (by omega)
    nlinarith
  have h5 := Int.ediv_le_ediv (show (0 : Int) < 2 by norm_num) h1
  omega

theorem gwv_mono (n : Nat) : Monotone (gwv n) := by
  intro a b hab
  unfold gwv
  by_cases ha : 0 < a
  · have hb : 0 < b := lt_of_lt_of_le ha hab
    rw [if_pos ha, if_pos hb]
    have h1 : ((n : Int) + 1) * ((n : Int) + a) ≤ ((n : Int) + 1) * ((n : Int) + b) :=
      mul_le_mul_of_nonneg_left (by omega) (by omega)
    have h2 := Int.ediv_le_ediv (show (0 : Int) < 2 by norm_num) h1
    omega
  · rw [if_neg ha]
    by_cases hb : 0 < b
    · rw [if_pos hb]
      have := gwv_pos_branch_nonneg n hb
      by_cases ha0 : a = 0
      · rw [if_pos ha0]; omega
      · rw [if_neg ha0]; omega
    · rw [if_neg hb]
      by_cases ha0 : a = 0
      · have hb0 : b = 0 := by omega
        rw [if_pos ha0, if_pos hb0]
      · by_cases hb0 : b = 0
        · rw [if_neg ha0, if_pos hb0]; omega
        · rw [if_neg ha0, if_neg hb0]

theorem gwv_strict {n : Nat} (hn : 1 ≤ n) :
    ∀ a b : Int, a < b → 0 ≤ b → gwv n a < gwv n b := by
  intro a b hab hb0
  unfold gwv
  by_cases hb : 0 < b
  · rw [if_pos hb]
    have hpos : (n : Int) + 1 ≤ ((n : Int) + 1) * ((n : Int) + b) / 2 := by
      have h1 : 2 * ((n : Int) + 1) ≤ ((n : Int) + 1) * ((n : Int) + b) := by
        have h2 := mul_le_mul_of_nonneg_left
          (show (2 : Int) ≤ (n : Int) + b by omega)
          (show (0 : Int) ≤ (n : Int) + 1 by omega)
        linarith
      have h3 := Int.ediv_le_ediv (show (0 : Int) < 2 by norm_num) h1
      omega
    by_cases ha : 0 < a
    · rw [if_pos ha]
      have hring : ((n : Int) + 1) * ((n : Int) + b) =
          ((n : Int) + 1) * ((n : Int) + a) + ((n : Int) + 1) * (b - a) := by ring
      have hone : ((n : Int) + 1) * 1 ≤ ((n : Int) + 1) * (b - a) :=
        mul_le_mul_of_nonneg_left (by omega) (by omega)
      have hd : ((n : Int) + 1) * ((n : Int) + a) + 2 ≤
          ((n : Int) + 1) * ((n : Int) + b) := by
        have : (2 : Int) ≤ (n : Int) + 1 := by omega
        linarith
      have h4 := Int.ediv_le_ediv (show (0 : Int) < 2 by norm_num) hd
      omega
    · rw [if_neg ha]
      by_cases ha0 : a = 0
      · rw [if_pos ha0]; omega
      · rw [if_neg ha0]; omega
  · have hb0' : b = 0 := by omega
    have ha : ¬ 0 < a := by omega
    have ha0 : ¬ a = 0 := by omega
    rw [if_neg hb, if_pos hb0', if_neg ha, if_neg ha0]
    omega

/-- On totally-deciding tallies (`support + opposition = totalvotes` whenever
they differ), the winning-votes value is determined by the margin through the
monotone map `gwv`. -/
theorem winning_votes_eq_gwv {s o n : Nat} (hso : s ≠ o → s + o = n) :
    winning_votes s o n = gwv n (margin s o n) := by
  unfold winning_votes margin gwv
  by_cases h : o < s
  · rw [if_pos h]
    have hsum : s + o = n := hso (by omega)
    have hm : (0 : Int) < (s : Int) - o := by omega
    rw [if_pos hm]
    have h2 : (n : Int) + ((s : Int) - o) = 2 * s := by omega
    rw [h2]
    have h3 : ((n : Int) + 1) * (2 * (s : Int)) = 2 * (((n : Int) + 1) * s) := by
      ring
    rw [h3, Int.mul_ediv_cancel_left _ (show (2 : Int) ≠ 0 by norm_num)]
    have h4 : ((n : Int) + 1) * s = (n : Int) * s + s := by ring
    rw [h4]
    have hsum' : (s : Int) + o = n := by omega
    linarith
  · rw [if_neg h]
    by_cases he : s = o
    · rw [if_pos he]
      have hm : ¬ (0 : Int) < (s : Int) - o := by omega
      have hm0 : (s : Int) - o = 0 := by omega
      rw [if_neg hm, if_pos hm0]
    · rw [if_neg he]
      have hm : ¬ (0 : Int) < (s : Int) - o := by omega
      have hm0 : ¬ ((s : Int) - o = 0) := by omega
      rw [if_neg hm, if_neg hm0]

theorem subindex_cons (l : List String) (v : List (List String)) (x : String) :
    subindex (l :: v) x =
      if l.contains x then some 0 else (subindex v x).map (· + 1) := by
  unfold subindex
  simp [List.findIdx?_cons]

theorem subindex_mem_some (x : String) :
    ∀ v : List (List String), x ∈ v.flatten → ∃ i, subindex v x = some i := by
  intro v
  induction v with
  | nil => intro h; simp at h
  | cons l v ih =>
    intro h
    rw [subindex_cons]
    by_cases hlx : l.contains x
    · exact ⟨0, by rw [if_pos hlx]⟩
    · have hx : x ∈ v.flatten := by
        rw [List.flatten_cons] at h
        rcases List.mem_append.mp h with hmem | hmem
        · exact absurd hmem (by simpa using hlx)
        · exact hmem
      obtain ⟨i, hi⟩ := ih hx
      exact ⟨i + 1, by rw [if_neg hlx, hi]; rfl⟩

theorem subindex_some_mem (x : String) :
    ∀ (v : List (List String)) (i : Nat), subindex v x = some i → x ∈ v.flatten := by
  intro v
  induction v with
  | nil => intro i h; exact absurd h (by simp [subindex])
  | cons l v ih =>
    intro i h
    rw [subindex_cons] at h
    by_cases hlx : l.contains x
    · rw [List.flatten_cons]
      exact List.mem_append_left _ (by simpa using hlx)
    · rw [if_neg hlx] at h
      cases hs : subindex v x with
      | none => rw [hs] at h; exact absurd h (by simp)
      | some k =>
        rw [List.flatten_cons]
        exact List.mem_append_right _ (ih k hs)

/-- Two candidates whose first levels have the same index share that level. -/
theorem subindex_same_level (x y : String) :
    ∀ (v : List (List String)) (i : Nat),
      subindex v x = some i → subindex v y = some i →
      ∃ l ∈ v, x ∈ l ∧ y ∈ l := by
  intro v
  induction v with
  | nil => intro i h; exact absurd h (by simp [subindex])
  | cons l v ih =>
    intro i hx hy
    rw [subindex_cons] at hx hy
    by_cases hlx : l.contains x
    · rw [if_pos hlx] at hx
      by_cases hly : l.contains y
      · exact ⟨l, List.mem_cons_self _ _, by simpa using hlx, by simpa using hly⟩
      · exfalso
        rw [if_neg hly] at hy
        have hi0 : i = 0 := (Option.some.inj hx).symm
        cases hsy : subindex v y with
        | none => rw [hsy] at hy; exact absurd hy (by simp)
        | some k => rw [hsy] at hy; simp [hi0] at hy
    · rw [if_neg hlx] at hx
      by_cases hly : l.contains y
      · exfalso
        rw [if_pos hly] at hy
        have hi0 : i = 0 := (Option.some.inj hy).symm
        cases hsx : subindex v x with
        | none => rw [hsx] at hx; exact absurd hx (by simp)
        | some k => rw [hsx] at hx; simp [hi0] at hx
      · rw [if_neg hly] at hy
        cases hsx : subindex v x with
        | none => rw [hsx] at hx; exact absurd hx (by simp)
        | some kx =>
          cases hsy : subindex v y with
          | none => rw [hsy] at hy; exact absurd hy (by simp)
          | some ky =>
            rw [hsx] at hx
            rw [hsy] at hy
            simp at hx hy
            have hk : kx = ky := by omega
            obtain ⟨l', hl', hx', hy'⟩ := ih kx hsx (by rw [hsy, hk])
            exact ⟨l', List.mem_cons_of_mem _ hl', hx', hy'⟩

/-- A vote the validator accepts contains exactly the candidate set. -/
theorem check_vote_none (cs : List String) (v : List (List String))
    (h : check_vote cs v = none) :
    (∀ c ∈ cs, c ∈ v.flatten) ∧ ∀ c ∈ v.flatten, c ∈ cs := by
  unfold check_vote at h
  by_cases hc : (cs.all (fun c => v.flatten.contains c) &&
      v.flatten.all (fun c => cs.contains c)) = true
  · have hc' := hc
    rw [Bool.and_eq_true] at hc'
    obtain ⟨h1, h2⟩ := hc'
    constructor
    · intro c hcmem
      have := List.all_eq_true.mp h1 c hcmem
      simpa using this
    · intro c hcmem
      have := List.all_eq_true.mp h2 c hcmem
      simpa using this
  · rw [if_neg hc] at h
    split at h <;> exact absurd h (by simp)

/-- On a validated vote whose levels are all singletons, two distinct
candidates are always ranked one way or the other. -/
theorem ranksAbove_total {cs : List String} {v : List (List String)}
    (hv : check_vote cs v = none)
    (hstrict : ∀ level ∈ v, level.length = 1)
    {x y : String} (hx : x ∈ cs) (hy : y ∈ cs) (hxy : x ≠ y) :
    ranksAbove v x y = !(ranksAbove v y x) := by
  obtain ⟨hsub, _⟩ := check_vote_none cs v hv
  obtain ⟨i, hi⟩ := subindex_mem_some x v (hsub x hx)
  obtain ⟨j, hj⟩ := subindex_mem_some y v (hsub y hy)
  have hij : i ≠ j := by
    rintro rfl
    obtain ⟨l, hl, hxl, hyl⟩ := subindex_same_level x y v i hi hj
    have hlen := hstrict l hl
    cases l with
    | nil => exact absurd hxl (List.not_mem_nil x)
    | cons a l' =>
      cases l' with
      | nil =>
        rcases List.mem_singleton.mp hxl with rfl
        rcases List.mem_singleton.mp hyl with rfl
        exact hxy rfl
      | cons b l'' => simp at hlen
  unfold ranksAbove
  rw [hi, hj]
  by_cases h : i < j
  · simp only [decide_eq_true_eq]
    have : ¬ j < i := by omega
    simp [h, this]
  · have hj' : j < i := by omega
    simp [h, hj']

theorem countP_total {α : Type} (p q : α → Bool) :
    ∀ l : List α, (∀ a ∈ l, p a = !(q a)) →
      l.countP p + l.countP q = l.length := by
  intro l
  induction l with
  | nil => intro _; simp
  | cons a l ih =>
    intro h
    have hl := ih fun x hx => h x (List.mem_cons_of_mem _ hx)
    have ha := h a (List.mem_cons_self a l)
    rw [List.countP_cons, List.countP_cons, List.length_cons]
    cases hpa : p a <;> cases hqa : q a <;> rw [hqa] at ha <;> simp at ha ⊢
    · rw [hpa] at ha
      simp at ha
    · omega
    · omega
    · rw [hpa] at ha
      simp at ha

/-- Validation success means: candidates are clean of separators and every
vote passes the per-vote check. -/
theorem check_consistency_ok (votes cs : List String)
    (hok : check_consistency votes cs = .ok ()) :
    ∀ v ∈ as_vote_tuples votes, check_vote cs v = none := by
  unfold check_consistency at hok
  by_cases hchar : cs.any (fun c => c.data.contains '>' || c.data.contains '=')
  · rw [if_pos hchar] at hok
    exact absurd hok (by simp)
  · rw [if_neg hchar] at hok
    exact (check_votes_ok_iff cs _).mp hok

/-- On validated strict-ranking ballots, opposite counts of distinct
candidates sum to the total number of ballots. -/
theorem preferCount_total (votes cs : List String)
    (hok : check_consistency votes cs = .ok ())
    (hstrict : ∀ s ∈ votes, ∀ level ∈ as_vote_tuple s, level.length = 1)
    {x y : String} (hx : x ∈ cs) (hy : y ∈ cs) (hxy : x ≠ y) :
    preferCount votes x y + preferCount votes y x = votes.length := by
  have hvok := check_consistency_ok votes cs hok
  unfold preferCount
  rw [countP_total _ _ (as_vote_tuples votes) ?_]
  · unfold as_vote_tuples
    rw [List.length_map]
  · intro v hv
    obtain ⟨s, hs, rfl⟩ := List.mem_map.mp hv
    exact ranksAbove_total (hvok _ hv) (hstrict s hs) hx hy hxy

/-- A candidate a vote actually ranks above or below another belongs to the
candidate set (validated votes use exactly that set). -/
theorem mem_cs_of_counts_ne (votes cs : List String)
    (hok : check_consistency votes cs = .ok ()) {x y : String}
    (hne : preferCount votes x y ≠ preferCount votes y x) :
    x ∈ cs ∧ y ∈ cs := by
  have hvok := check_consistency_ok votes cs hok
  have hex : ∃ v ∈ as_vote_tuples votes,
      ranksAbove v x y = true ∨ ranksAbove v y x = true := by
    by_contra hall
    push_neg at hall
    apply hne
    unfold preferCount
    rw [List.countP_eq_zero.mpr, List.countP_eq_zero.mpr]
    · intro v hv hcon
      exact (hall v hv).2 hcon
    · intro v hv hcon
      exact (hall v hv).1 hcon
  obtain ⟨v, hv, hrank⟩ := hex
  have hboth : x ∈ v.flatten ∧ y ∈ v.flatten := by
    rcases hrank with hr | hr
    · unfold ranksAbove at hr
      cases hsx : subindex v x with
      | none => rw [hsx] at hr; simp at hr
      | some i =>
        cases hsy : subindex v y with
        | none => rw [hsx, hsy] at hr; simp at hr
        | some j =>
          exact ⟨subindex_some_mem x v i hsx, subindex_some_mem y v j hsy⟩
    · unfold ranksAbove at hr
      cases hsx : subindex v x with
      | none =>
        cases hsy : subindex v y with
        | none => rw [hsy] at hr; simp at hr
        | some j => rw [hsy, hsx] at hr; simp at hr
      | some i =>
        cases hsy : subindex v y with
        | none => rw [hsy] at hr; simp at hr
        | some j =>
          exact ⟨subindex_some_mem x v i hsx, subindex_some_mem y v j hsy⟩
  have hsub := (check_vote_none cs v (hvok v hv)).2
  exact ⟨hsub x hboth.1, hsub y hboth.2⟩

/-- On validated strict-ranking ballots, the winning-votes link strength is
the monotone image (under `gwv`) of the margin link strength. -/
theorem link_strength_wv_margin (votes cs : List String)
    (hok : check_consistency votes cs = .ok ())
    (hstrict : ∀ s ∈ votes, ∀ level ∈ as_vote_tuple s, level.length = 1)
    (x y : String) :
    link_strength votes winning_votes x y =
      gwv votes.length (link_strength votes margin x y) := by
  unfold link_strength
  apply winning_votes_eq_gwv
  intro hne
  obtain ⟨hx, hy⟩ := mem_cs_of_counts_ne votes cs hok hne
  have hxy : x ≠ y := by
    rintro rfl
    exact hne rfl
  exact preferCount_total votes cs hok hstrict hx hy hxy

/-- Claim C1 (amended): on a validated ballot collection with no tied
pairwise counts in which additionally every ballot ranks the candidates
strictly (every level of every ballot holds exactly one candidate),
`schulze_evaluate` returns the same condensed result under `winning_votes`
and under `margin`. -/
theorem schulze_evaluate_wv_eq_margin (votes cs : List String)
    (hok : check_consistency votes cs = .ok ())
    (huntied : ∀ x ∈ cs, ∀ y ∈ cs, x ≠ y →
      preferCount votes x y ≠ preferCount votes y x)
    (hstrict : ∀ s ∈ votes, ∀ level ∈ as_vote_tuple s, level.length = 1) :
    schulze_evaluate votes cs winning_votes = schulze_evaluate votes cs margin := by
  have hwinners : ∀ remaining : List String,
      schulze_winners (link_strength votes winning_votes) remaining =
        schulze_winners (link_strength votes margin) remaining := by
    intro remaining
    by_cases hn : votes.length = 0
    · have hnil : votes = [] := List.length_eq_zero.mp hn
      subst hnil
      exact schulze_winners_map id monotone_id (fun a b hab _ => hab)
        (link_strength [] margin) (link_strength [] winning_votes)
        (fun x y => by unfold link_strength margin; omega)
        (fun x y => rfl) remaining
    · exact schulze_winners_map (gwv votes.length) (gwv_mono _)
        (gwv_strict (by omega))
        (link_strength votes margin) (link_strength votes winning_votes)
        (fun x y => by unfold link_strength margin; omega)
        (fun x y => link_strength_wv_margin votes cs hok hstrict x y) remaining
  have hres : (schulze_evaluate_routine votes cs winning_votes).2 =
      (schulze_evaluate_routine votes cs margin).2 := by
    show schulze_rounds (link_strength votes winning_votes) cs [] cs.length =
      schulze_rounds (link_strength votes margin) cs [] cs.length
    exact schulze_rounds_congr _ _ hwinners cs cs.length []
  unfold schulze_evaluate
  rw [hok, hres]

/-- Claim C1, counterexample to the claim as stated: over candidates
`a, b, c`, the five ballots `a>b>c, a>b>c, b>c>a, c>a=b, c>a=b` have no tied
pairwise counts (the counts are 2:1, 3:2, 3:2), yet winning-votes yields
`b>c>a` while margin yields `a=b=c`.  Ties inside ballots make the two
metrics order the cycle's edges differently. -/
theorem schulze_evaluate_wv_eq_margin_cex :
    (["a", "b", "c"].all (fun x => ["a", "b", "c"].all (fun y =>
        x == y ||
          decide (preferCount ["a>b>c", "a>b>c", "b>c>a", "c>a=b", "c>a=b"] x y ≠
            preferCount ["a>b>c", "a>b>c", "b>c>a", "c>a=b", "c>a=b"] y x))) = true) ∧
    schulze_evaluate ["a>b>c", "a>b>c", "b>c>a", "c>a=b", "c>a=b"] ["a", "b", "c"]
        winning_votes = .ok "b>c>a" ∧
    schulze_evaluate ["a>b>c", "a>b>c", "b>c>a", "c>a=b", "c>a=b"] ["a", "b", "c"]
        margin = .ok "a=b=c" ∧
    schulze_evaluate ["a>b>c", "a>b>c", "b>c>a", "c>a=b", "c>a=b"] ["a", "b", "c"]
        winning_votes ≠
      schulze_evaluate ["a>b>c", "a>b>c", "b>c>a", "c>a=b", "c>a=b"] ["a", "b", "c"]
        margin :=
  ⟨rfl, rfl, rfl, by decide⟩

theorem schulze_evaluate_wv_eq_margin_witness :
    schulze_evaluate ["a>b", "b>a", "a>b"] ["a", "b"] winning_votes =
      schulze_evaluate ["a>b", "b>a", "a>b"] ["a", "b"] margin :=
  schulze_evaluate_wv_eq_margin ["a>b", "b>a", "a>b"] ["a", "b"] rfl
    (by decide) (by decide)
